import Mathlib

/-!
Shallow embedding of the `study-crdt` myers-diff engine
(`packages/myers-diff/src/Domain/ValueObject/{Span,Comparer,Patch}.ts` and the
string facade `StringDiff.ts`), together with proofs of the specification's
claims about it.

JavaScript arrays are modelled as `List`, strings as `List Char`, machine
numbers (all the code's numbers are non-negative integer counts and indices)
as `Nat`, thrown exceptions as `Except String`, and the optional `comparer`
argument as an `Option`.  The two `while` loops of the diff algorithm
(LCS-table recurrence consultation and backtracking) and the span-merging
loop are embedded as fuel-indexed structural recursions; each loop decreases
`i + j` (resp. the remaining operation-list length) by at least one per
iteration, so fuel `i + j` (resp. the list length) makes the fuel-exhaustion
branches unreachable, and the wrappers invoke them with exactly that fuel.
-/

namespace StudyCrdt

/-- Type `Span<T>` from `Span.ts`: `{type:"retain",count}` | `{type:"delete",count}`
| `{type:"insert",items}`. -/
inductive Span (T : Type) where
  | retain (count : Nat)
  | delete (count : Nat)
  | insert (items : List T)
deriving DecidableEq, Repr

/-- Type `SpanDto<T>` from `Span.ts`: a JS object that may carry the discriminator
keys `r`, `d`, `i`; a missing key is `none`. -/
structure SpanDto (T : Type) where
  r : Option Nat := none
  d : Option Nat := none
  i : Option (List T) := none
deriving DecidableEq, Repr

/-- Model of `$Span.fromDto`: tests the keys `r`, `d`, `i` in that order and throws
`"Invalid span DTO"` when none is present. -/
def spanFromDto {T : Type} (dto : SpanDto T) : Except String (Span T) :=
  match dto.r with
  | some c => .ok (Span.retain c)
  | none =>
    match dto.d with
    | some c => .ok (Span.delete c)
    | none =>
      match dto.i with
      | some items => .ok (Span.insert items)
      | none => .error "Invalid span DTO"

/-- Model of `$Span.toDto`: emits exactly one of the keys `r`, `d`, `i`. -/
def spanToDto {T : Type} : Span T → SpanDto T
  | Span.retain c => { r := some c }
  | Span.delete c => { d := some c }
  | Span.insert items => { i := some items }

/-- A span DTO is valid (per the spec's wire format) when it carries exactly
one of the three discriminator keys. -/
def spanDtoValid {T : Type} (dto : SpanDto T) : Prop :=
  (dto.r.isSome ∧ dto.d.isNone ∧ dto.i.isNone) ∨
  (dto.r.isNone ∧ dto.d.isSome ∧ dto.i.isNone) ∨
  (dto.r.isNone ∧ dto.d.isNone ∧ dto.i.isSome)

instance {T : Type} (dto : SpanDto T) : Decidable (spanDtoValid dto) := by
  unfold spanDtoValid; infer_instance

/-- Type `Patch<T>` from `Patch.ts`.  The optional internal metadata field
`_isStringPatch?: boolean` is modelled as a `Bool` (`undefined` ↦ `false`):
`$Patch.apply` branches on its truthiness. -/
structure Patch (T : Type) where
  baseVersion : List T
  spans : List (Span T)
  isStringPatch : Bool := false
deriving DecidableEq, Repr

/-- Type `PatchDto<T>` from `Patch.ts`: `{ v: T[], s: SpanDto<T>[] }`. -/
structure PatchDto (T : Type) where
  v : List T
  s : List (SpanDto T)
deriving DecidableEq, Repr

/-- Model of `$Patch.toDto`: `{ v: baseVersion, s: spans.map($Span.toDto) }` (the
`_isStringPatch` metadata is not serialized). -/
def patchToDto {T : Type} (p : Patch T) : PatchDto T :=
  { v := p.baseVersion, s := p.spans.map spanToDto }

/-- Model of `dto.s.map($Span.fromDto)` with the JS exception threaded through: the
map stops at the first invalid span DTO. -/
def spansFromDtos {T : Type} : List (SpanDto T) → Except String (List (Span T))
  | [] => .ok []
  | dto :: rest =>
    match spanFromDto dto with
    | .error e => .error e
    | .ok s =>
      match spansFromDtos rest with
      | .error e => .error e
      | .ok ss => .ok (s :: ss)

/-- Model of `$Patch.fromDto`: `dto.s.map($Span.fromDto)` throws at the first invalid
span DTO; the rebuilt patch carries no `_isStringPatch` flag. -/
def patchFromDto {T : Type} (dto : PatchDto T) : Except String (Patch T) :=
  (spansFromDtos dto.s).map fun spans =>
    { baseVersion := dto.v, spans := spans, isStringPatch := false }

/-- One step of the backtracked edit script, before merging
(`{op: "retain"|"delete"|"insert", item?}` in `_createFromDiffArray`). -/
inductive Op (T : Type) where
  | retain
  | delete
  | insert (item : T)
deriving DecidableEq, Repr

def opIsRetain {T : Type} : Op T → Bool
  | Op.retain => true
  | _ => false

def opIsDelete {T : Type} : Op T → Bool
  | Op.delete => true
  | _ => false

def opIsInsert {T : Type} : Op T → Bool
  | Op.insert _ => true
  | _ => false

/-- The `item` payload of an insert step (`op.item!` in the source; only ever
read on insert steps). -/
def opItem {T : Type} [Inhabited T] : Op T → T
  | Op.insert x => x
  | _ => default

/-- The LCS-table recurrence of `createOptimalDiff`:
`lcsF fuel i j` is `lcs[i][j]`, the LCS length of `before[0..i)` and
`after[0..j)`.  `if equals(before[i-1], after[j-1]) then lcs[i-1][j-1]+1 else
max(lcs[i-1][j], lcs[i][j-1])`, with zero base row and column.  Each recursive
call drops `i + j` by at least one, so any `fuel ≥ i + j` computes the table
value; the fuel-exhaustion branch is unreachable for such fuel. -/
def lcsF {T : Type} [Inhabited T] (eq : T → T → Bool) (before after : List T) :
    Nat → Nat → Nat → Nat
  | _, 0, _ => 0
  | _, _ + 1, 0 => 0
  | 0, _ + 1, _ + 1 => 0
  | fuel + 1, i + 1, j + 1 =>
    if eq (before.getD i default) (after.getD j default) then
      lcsF eq before after fuel i j + 1
    else
      max (lcsF eq before after fuel i (j + 1)) (lcsF eq before after fuel (i + 1) j)

/-- Table entry `lcs[i][j]` consulted by the backtracking loop. -/
def lcs {T : Type} [Inhabited T] (eq : T → T → Bool) (before after : List T)
    (i j : Nat) : Nat :=
  lcsF eq before after (i + j) i j

/-- The backtracking `while (i > 0 || j > 0)` loop of `createOptimalDiff`,
case-split on the loop guards.  At `(i+1, j+1)`: equal elements emit a retain
step and move diagonally; otherwise `lcs[i][j+1] >= lcs[i+1][j]` (the source's
`lcs[i-1][j] >= lcs[i][j-1]`, preferring delete on ties) emits a delete step,
else an insert step carrying `after[j]`.  At `(i+1, 0)` only the delete branch
can fire; at `(0, j+1)` only the insert branch.  Steps are `unshift`ed, so the
returned list is in forward order; one iteration decreases `i + j` by at least
one, so fuel `i + j` never exhausts. -/
def backtrackF {T : Type} [Inhabited T] (eq : T → T → Bool) (before after : List T) :
    Nat → Nat → Nat → List (Op T)
  | _, 0, 0 => []
  | 0, _ + 1, _ => []
  | 0, 0, _ + 1 => []
  | fuel + 1, i + 1, 0 => backtrackF eq before after fuel i 0 ++ [Op.delete]
  | fuel + 1, 0, j + 1 =>
    backtrackF eq before after fuel 0 j ++ [Op.insert (after.getD j default)]
  | fuel + 1, i + 1, j + 1 =>
    if eq (before.getD i default) (after.getD j default) then
      backtrackF eq before after fuel i j ++ [Op.retain]
    else if lcs eq before after (i + 1) j ≤ lcs eq before after i (j + 1) then
      backtrackF eq before after fuel i (j + 1) ++ [Op.delete]
    else
      backtrackF eq before after fuel (i + 1) j ++ [Op.insert (after.getD j default)]

/-- The merge loop of `createOptimalDiff`: each emitted span covers the head
step plus the maximal run of following same-kind steps.  Fuel bounds the
remaining list length (the dropped run is a prefix, so the remainder is
strictly shorter each iteration). -/
def mergeOpsF {T : Type} [Inhabited T] : Nat → List (Op T) → List (Span T)
  | _, [] => []
  | 0, _ :: _ => []
  | fuel + 1, Op.retain :: rest =>
    Span.retain (1 + (rest.takeWhile opIsRetain).length) ::
      mergeOpsF fuel (rest.dropWhile opIsRetain)
  | fuel + 1, Op.delete :: rest =>
    Span.delete (1 + (rest.takeWhile opIsDelete).length) ::
      mergeOpsF fuel (rest.dropWhile opIsDelete)
  | fuel + 1, Op.insert x :: rest =>
    Span.insert (x :: (rest.takeWhile opIsInsert).map opItem) ::
      mergeOpsF fuel (rest.dropWhile opIsInsert)

def mergeOps {T : Type} [Inhabited T] (ops : List (Op T)) : List (Span T) :=
  mergeOpsF ops.length ops

/-- Model of `createOptimalDiff(before, after)` from `$Patch._createFromDiffArray`:
degenerate fast paths, then LCS backtracking plus merging. -/
def createOptimalDiff {T : Type} [Inhabited T] (eq : T → T → Bool)
    (before after : List T) : List (Span T) :=
  let n := before.length
  let m := after.length
  if n = 0 then
    if after.length ≠ 0 then [Span.insert after] else []
  else if m = 0 then
    [Span.delete n]
  else if n = m ∧ (List.zipWith eq before after).all id then
    [Span.retain n]
  else
    mergeOps (backtrackF eq before after (n + m) n m)

/-- Model of `$Patch._createFromDiffArray(before, after, comparer)`. -/
def createFromDiffArray {T : Type} [Inhabited T] (eq : T → T → Bool)
    (before after : List T) : Patch T :=
  { baseVersion := before
    spans := createOptimalDiff eq before after
    isStringPatch := false }

/-- The span-processing loop of `$Patch._applyArray`: retain appends
`baseVersion.slice(position, position + count)` (JS `slice` clamps to the
array bounds) and advances the cursor, delete only advances the cursor,
insert appends its items. -/
def applySpans {T : Type} (base : List T) : List (Span T) → Nat → List T
  | [], _ => []
  | Span.retain c :: rest, pos => (base.drop pos).take c ++ applySpans base rest (pos + c)
  | Span.delete c :: rest, pos => applySpans base rest (pos + c)
  | Span.insert items :: rest, pos => items ++ applySpans base rest pos

/-- Model of `$Patch._applyArray(patch)`. -/
def applyArray {T : Type} (p : Patch T) : List T :=
  applySpans p.baseVersion p.spans 0

/-- Model of `Comparers.strict<string>().equals` restricted to the single-character
strings produced by `split("")`: JS `===` on them is character equality. -/
def charEq (a b : Char) : Bool := a == b

/-- The string branch of `$Patch.createFromDiff`: split both strings into
characters, diff with the strict comparer, and tag the result with
`_isStringPatch: true`. -/
def patchCreateFromDiffStr (before after : List Char) : Patch Char :=
  { createFromDiffArray charEq before after with isStringPatch := true }

/-- A JS `string | T[]` value at element type `Char` (the one type at which
both branches of the unified `$Patch` API are well-typed: a string behaves as
its character array under indexing, spreading and `length`). -/
inductive StrOrArr where
  | str (s : List Char)
  | arr (l : List Char)
deriving DecidableEq, Repr

/-- The character sequence a `string | T[]` value denotes. -/
def StrOrArr.chars : StrOrArr → List Char
  | .str s => s
  | .arr l => l

/-- Test `typeof x === "string"`. -/
def StrOrArr.isStr : StrOrArr → Bool
  | .str _ => true
  | .arr _ => false

/-- The unified `$Patch.createFromDiff(before, after, comparer?)`: when both
arguments are strings, the string branch (strict character comparer, tagged
patch); otherwise `if (!comparer) throw new Error("Comparer is required for
array diff")`, else the array branch. -/
def patchCreateFromDiff (before after : StrOrArr)
    (comparer : Option (Char → Char → Bool)) : Except String (Patch Char) :=
  match before, after with
  | .str b, .str a => .ok (patchCreateFromDiffStr b a)
  | b, a =>
    match comparer with
    | none => .error "Comparer is required for array diff"
    | some eq => .ok (createFromDiffArray eq b.chars a.chars)

/-- Model of `$Patch.apply(patch)`: `_applyArray`, then joined back into a string when
the patch carries the `_isStringPatch` tag. -/
def patchApply (p : Patch Char) : StrOrArr :=
  if p.isStringPatch then .str (applyArray p) else .arr (applyArray p)

/-- The `reduce` of `$Patch.getEditDistance`: sum of delete counts and insert
item counts. -/
def editDistanceSpans {T : Type} (spans : List (Span T)) : Nat :=
  spans.foldl
    (fun acc s =>
      match s with
      | Span.delete c => acc + c
      | Span.insert items => acc + items.length
      | Span.retain _ => acc)
    0

/-- The unified `$Patch.getEditDistance(before, after, comparer?)`: string
pairs go through the string branch of `createFromDiff`; otherwise
`if (!comparer) throw new Error("Comparer is required for array edit
distance")`, else the array branch; then the span reduction. -/
def patchGetEditDistance (before after : StrOrArr)
    (comparer : Option (Char → Char → Bool)) : Except String Nat :=
  match before, after with
  | .str b, .str a => .ok (editDistanceSpans (patchCreateFromDiffStr b a).spans)
  | b, a =>
    match comparer with
    | none => .error "Comparer is required for array edit distance"
    | some eq => .ok (editDistanceSpans (createFromDiffArray eq b.chars a.chars).spans)

/-- Model of `$StringDiff.createFromDiff` (`StringDiff.ts`): splits both strings and
calls `$Patch.createFromDiff(beforeArray, afterArray, strictComparer)` — the
array branch, so no `_isStringPatch` tag is set. -/
def stringDiffCreateFromDiff (before after : List Char) : Patch Char :=
  createFromDiffArray charEq before after

/-- Model of `$StringDiff.apply`, that is `$Patch.apply(patch).join("")`.  For the untagged
patches `$StringDiff.createFromDiff` produces, `$Patch.apply` returns the
character array, and `join("")` turns it back into the string. -/
def stringDiffApply (p : Patch Char) : List Char :=
  applyArray p

/-- A JS operand that may be `null`, `undefined`, or a proper value. -/
inductive Nullish (α : Type) where
  | nullv
  | undefv
  | val (a : α)
deriving DecidableEq, Repr

/-- Model of `Comparers.byField(field).equals`:
`if (a == null || b == null) return a === b; return a[field] === b[field]`.
Loose `== null` is true for both `null` and `undefined`; strict `===` equates
`null` with `null` and `undefined` with `undefined` but not `null` with
`undefined`, and a nullish operand is never `===` a non-null one. -/
def byFieldEquals {α β : Type} [DecidableEq β] (field : α → β) :
    Nullish α → Nullish α → Bool
  | .nullv, .nullv => true
  | .undefv, .undefv => true
  | .val a, .val b => decide (field a = field b)
  | _, _ => false

/-- Base-sequence positions a span consumes: `count` for retain and delete,
none for insert. -/
def spanConsume {T : Type} : Span T → Nat
  | Span.retain c => c
  | Span.delete c => c
  | Span.insert _ => 0

def spansConsume {T : Type} (spans : List (Span T)) : Nat :=
  (spans.map spanConsume).sum

def opConsume {T : Type} : Op T → Nat
  | Op.insert _ => 0
  | _ => 1

def opsConsume {T : Type} (ops : List (Op T)) : Nat :=
  (ops.map opConsume).sum

/-- Semantics of an unmerged step list, cursor-passing exactly as
`_applyArray` treats the corresponding single-count spans. -/
def opsOut {T : Type} (base : List T) : List (Op T) → Nat → List T
  | [], _ => []
  | Op.retain :: rest, pos => (base.drop pos).take 1 ++ opsOut base rest (pos + 1)
  | Op.delete :: rest, pos => opsOut base rest (pos + 1)
  | Op.insert x :: rest, pos => x :: opsOut base rest pos

/-- Well-formedness of an emitted span: counts at least 1, insert payload
nonempty. -/
def spanWellFormed {T : Type} : Span T → Prop
  | Span.retain c => 1 ≤ c
  | Span.delete c => 1 ≤ c
  | Span.insert items => items ≠ []

/-- The variant tag of a span (retain / delete / insert). -/
def spanTag {T : Type} : Span T → Nat
  | Span.retain _ => 0
  | Span.delete _ => 1
  | Span.insert _ => 2

/-- The variant tag of an unmerged step. -/
def opTag {T : Type} : Op T → Nat
  | Op.retain => 0
  | Op.delete => 1
  | Op.insert _ => 2

/-- Items contributed by a span to the output: the insert payload size. -/
def spanInserted {T : Type} : Span T → Nat
  | Span.insert items => items.length
  | _ => 0

instance {ε α : Type} [DecidableEq ε] [DecidableEq α] : DecidableEq (Except ε α)
  | .ok a, .ok b =>
    if h : a = b then isTrue (congrArg Except.ok h)
    else isFalse fun hc => h (Except.ok.inj hc)
  | .error e, .error f =>
    if h : e = f then isTrue (congrArg Except.error h)
    else isFalse fun hc => h (Except.error.inj hc)
  | .ok _, .error _ => isFalse fun hc => Except.noConfusion hc
  | .error _, .ok _ => isFalse fun hc => Except.noConfusion hc

/-! ### List helpers -/

theorem length_dropWhile_le {α : Type} (p : α → Bool) (l : List α) :
    (l.dropWhile p).length ≤ l.length :=
  (List.dropWhile_suffix p).sublist.length_le

theorem dropWhile_head_false {α : Type} {p : α → Bool} :
    ∀ {l : List α} {x : α} {xs : List α}, l.dropWhile p = x :: xs → p x = false := by
  intro l
  induction l with
  | nil => intro x xs h; simp [List.dropWhile] at h
  | cons a t ih =>
    intro x xs h
    rw [List.dropWhile_cons] at h
    by_cases hp : p a = true
    · rw [if_pos hp] at h
      exact ih h
    · rw [if_neg hp] at h
      cases h
      simpa using hp

theorem drop_take_succ {α : Type} (l : List α) (pos c : Nat) :
    (l.drop pos).take (c + 1) = (l.drop pos).take 1 ++ (l.drop (pos + 1)).take c := by
  have hd : l.drop (pos + 1) = (l.drop pos).drop 1 := by
    rw [List.drop_drop]
  cases h : l.drop pos with
  | nil => rw [hd, h]; simp
  | cons a t => rw [hd, h]; simp

theorem drop_take_one {α : Type} (d : α) :
    ∀ (l : List α) (i : Nat), i < l.length → (l.drop i).take 1 = [l.getD i d] := by
  intro l
  induction l with
  | nil => intro i h; simp at h
  | cons a t ih =>
    intro i h
    cases i with
    | zero => simp
    | succ i =>
      have ht : i < t.length := by simpa using h
      simpa using ih i ht

theorem take_succ_getD {α : Type} (d : α) :
    ∀ (l : List α) (j : Nat), j < l.length → l.take (j + 1) = l.take j ++ [l.getD j d] := by
  intro l
  induction l with
  | nil => intro j h; simp at h
  | cons a t ih =>
    intro j h
    cases j with
    | zero => simp
    | succ j =>
      have ht : j < t.length := by simpa using h
      simpa using ih j ht

/-! ### Consumption and semantics of unmerged step lists -/

theorem opsConsume_nil {T : Type} : opsConsume ([] : List (Op T)) = 0 := rfl

theorem opsConsume_cons {T : Type} (o : Op T) (l : List (Op T)) :
    opsConsume (o :: l) = opConsume o + opsConsume l := by
  simp [opsConsume]

theorem opsConsume_append {T : Type} (u v : List (Op T)) :
    opsConsume (u ++ v) = opsConsume u + opsConsume v := by
  simp [opsConsume]

theorem spansConsume_cons {T : Type} (s : Span T) (l : List (Span T)) :
    spansConsume (s :: l) = spanConsume s + spansConsume l := by
  simp [spansConsume]

theorem opsOut_append {T : Type} (base : List T) :
    ∀ (u v : List (Op T)) (pos : Nat),
      opsOut base (u ++ v) pos = opsOut base u pos ++ opsOut base v (pos + opsConsume u) := by
  intro u
  induction u with
  | nil => intro v pos; simp [opsOut, opsConsume]
  | cons o u ih =>
    intro v pos
    cases o with
    | retain =>
      show (base.drop pos).take 1 ++ opsOut base (u ++ v) (pos + 1) =
        ((base.drop pos).take 1 ++ opsOut base u (pos + 1)) ++
          opsOut base v (pos + opsConsume (Op.retain :: u))
      rw [ih, opsConsume_cons, List.append_assoc]
      have harith : pos + 1 + opsConsume u = pos + (opConsume (Op.retain : Op T) + opsConsume u) := by
        simp [opConsume]
        omega
      rw [harith]
    | delete =>
      show opsOut base (u ++ v) (pos + 1) =
        opsOut base u (pos + 1) ++ opsOut base v (pos + opsConsume (Op.delete :: u))
      rw [ih, opsConsume_cons]
      have harith : pos + 1 + opsConsume u = pos + (opConsume (Op.delete : Op T) + opsConsume u) := by
        simp [opConsume]
        omega
      rw [harith]
    | insert x =>
      show x :: opsOut base (u ++ v) pos =
        (x :: opsOut base u pos) ++ opsOut base v (pos + opsConsume (Op.insert x :: u))
      rw [ih, opsConsume_cons]
      have harith : pos + opsConsume u = pos + (opConsume (Op.insert x) + opsConsume u) := by
        simp [opConsume]
      rw [harith]
      rfl

theorem opsConsume_run_retain {T : Type} :
    ∀ (tw : List (Op T)), (∀ o ∈ tw, opIsRetain o = true) → opsConsume tw = tw.length := by
  intro tw
  induction tw with
  | nil => intro _; rfl
  | cons o t ih =>
    intro h
    have ho := h o (List.mem_cons_self o t)
    have ht := ih fun x hx => h x (List.mem_cons_of_mem o hx)
    cases o with
    | retain =>
      rw [opsConsume_cons, ht]
      simp [opConsume]
      omega
    | delete => simp [opIsRetain] at ho
    | insert x => simp [opIsRetain] at ho

theorem opsConsume_run_delete {T : Type} :
    ∀ (tw : List (Op T)), (∀ o ∈ tw, opIsDelete o = true) → opsConsume tw = tw.length := by
  intro tw
  induction tw with
  | nil => intro _; rfl
  | cons o t ih =>
    intro h
    have ho := h o (List.mem_cons_self o t)
    have ht := ih fun x hx => h x (List.mem_cons_of_mem o hx)
    cases o with
    | delete =>
      rw [opsConsume_cons, ht]
      simp [opConsume]
      omega
    | retain => simp [opIsDelete] at ho
    | insert x => simp [opIsDelete] at ho

theorem opsConsume_run_insert {T : Type} :
    ∀ (tw : List (Op T)), (∀ o ∈ tw, opIsInsert o = true) → opsConsume tw = 0 := by
  intro tw
  induction tw with
  | nil => intro _; rfl
  | cons o t ih =>
    intro h
    have ho := h o (List.mem_cons_self o t)
    have ht := ih fun x hx => h x (List.mem_cons_of_mem o hx)
    cases o with
    | insert x =>
      rw [opsConsume_cons, ht]
      simp [opConsume]
    | retain => simp [opIsInsert] at ho
    | delete => simp [opIsInsert] at ho

theorem opsOut_run_retain {T : Type} (base : List T) :
    ∀ (tw : List (Op T)), (∀ o ∈ tw, opIsRetain o = true) →
      ∀ pos, opsOut base tw pos = (base.drop pos).take tw.length := by
  intro tw
  induction tw with
  | nil => intro _ pos; simp [opsOut]
  | cons o t ih =>
    intro h pos
    have ho := h o (List.mem_cons_self o t)
    have ht := ih fun x hx => h x (List.mem_cons_of_mem o hx)
    cases o with
    | retain =>
      show (base.drop pos).take 1 ++ opsOut base t (pos + 1) = (base.drop pos).take (t.length + 1)
      rw [ht (pos + 1), drop_take_succ base pos t.length]
    | delete => simp [opIsRetain] at ho
    | insert x => simp [opIsRetain] at ho

theorem opsOut_run_delete {T : Type} (base : List T) :
    ∀ (tw : List (Op T)), (∀ o ∈ tw, opIsDelete o = true) →
      ∀ pos, opsOut base tw pos = [] := by
  intro tw
  induction tw with
  | nil => intro _ pos; rfl
  | cons o t ih =>
    intro h pos
    have ho := h o (List.mem_cons_self o t)
    have ht := ih fun x hx => h x (List.mem_cons_of_mem o hx)
    cases o with
    | delete =>
      show opsOut base t (pos + 1) = []
      exact ht (pos + 1)
    | retain => simp [opIsDelete] at ho
    | insert x => simp [opIsDelete] at ho

theorem opsOut_run_insert {T : Type} [Inhabited T] (base : List T) :
    ∀ (tw : List (Op T)), (∀ o ∈ tw, opIsInsert o = true) →
      ∀ pos, opsOut base tw pos = tw.map opItem := by
  intro tw
  induction tw with
  | nil => intro _ pos; rfl
  | cons o t ih =>
    intro h pos
    have ho := h o (List.mem_cons_self o t)
    have ht := ih fun x hx => h x (List.mem_cons_of_mem o hx)
    cases o with
    | insert x =>
      show x :: opsOut base t pos = opItem (Op.insert x) :: t.map opItem
      rw [ht pos]
      rfl
    | retain => simp [opIsInsert] at ho
    | delete => simp [opIsInsert] at ho

/-! ### The merge loop preserves consumption and semantics -/

theorem mergeOpsF_consume {T : Type} [Inhabited T] :
    ∀ (fuel : Nat) (ops : List (Op T)), ops.length ≤ fuel →
      spansConsume (mergeOpsF fuel ops) = opsConsume ops := by
  intro fuel
  induction fuel with
  | zero =>
    intro ops h
    cases ops with
    | nil => rfl
    | cons o rest => simp at h
  | succ fuel ih =>
    intro ops h
    cases ops with
    | nil => rfl
    | cons o rest =>
      cases o with
      | retain =>
        show spansConsume (Span.retain (1 + (rest.takeWhile opIsRetain).length) ::
          mergeOpsF fuel (rest.dropWhile opIsRetain)) = opsConsume (Op.retain :: rest)
        rw [spansConsume_cons, opsConsume_cons,
          ih _ (le_trans (length_dropWhile_le _ _) (by simpa using h))]
        have hrest : opsConsume rest =
            opsConsume (rest.takeWhile opIsRetain) + opsConsume (rest.dropWhile opIsRetain) := by
          conv_lhs => rw [← List.takeWhile_append_dropWhile (p := opIsRetain) (l := rest)]
          rw [opsConsume_append]
        have htw : opsConsume (rest.takeWhile opIsRetain) = (rest.takeWhile opIsRetain).length :=
          opsConsume_run_retain _ fun o ho => List.mem_takeWhile_imp ho
        rw [hrest, htw]
        simp [spanConsume, opConsume]
        omega
      | delete =>
        show spansConsume (Span.delete (1 + (rest.takeWhile opIsDelete).length) ::
          mergeOpsF fuel (rest.dropWhile opIsDelete)) = opsConsume (Op.delete :: rest)
        rw [spansConsume_cons, opsConsume_cons,
          ih _ (le_trans (length_dropWhile_le _ _) (by simpa using h))]
        have hrest : opsConsume rest =
            opsConsume (rest.takeWhile opIsDelete) + opsConsume (rest.dropWhile opIsDelete) := by
          conv_lhs => rw [← List.takeWhile_append_dropWhile (p := opIsDelete) (l := rest)]
          rw [opsConsume_append]
        have htw : opsConsume (rest.takeWhile opIsDelete) = (rest.takeWhile opIsDelete).length :=
          opsConsume_run_delete _ fun o ho => List.mem_takeWhile_imp ho
        rw [hrest, htw]
        simp [spanConsume, opConsume]
        omega
      | insert x =>
        show spansConsume (Span.insert (x :: (rest.takeWhile opIsInsert).map opItem) ::
          mergeOpsF fuel (rest.dropWhile opIsInsert)) = opsConsume (Op.insert x :: rest)
        rw [spansConsume_cons, opsConsume_cons,
          ih _ (le_trans (length_dropWhile_le _ _) (by simpa using h))]
        have hrest : opsConsume rest =
            opsConsume (rest.takeWhile opIsInsert) + opsConsume (rest.dropWhile opIsInsert) := by
          conv_lhs => rw [← List.takeWhile_append_dropWhile (p := opIsInsert) (l := rest)]
          rw [opsConsume_append]
        have htw : opsConsume (rest.takeWhile opIsInsert) = 0 :=
          opsConsume_run_insert _ fun o ho => List.mem_takeWhile_imp ho
        rw [hrest, htw]
        simp [spanConsume, opConsume]

theorem mergeOpsF_out {T : Type} [Inhabited T] (base : List T) :
    ∀ (fuel : Nat) (ops : List (Op T)), ops.length ≤ fuel → ∀ pos,
      applySpans base (mergeOpsF fuel ops) pos = opsOut base ops pos := by
  intro fuel
  induction fuel with
  | zero =>
    intro ops h pos
    cases ops with
    | nil => rfl
    | cons o rest => simp at h
  | succ fuel ih =>
    intro ops h pos
    cases ops with
    | nil => rfl
    | cons o rest =>
      cases o with
      | retain =>
        show (base.drop pos).take (1 + (rest.takeWhile opIsRetain).length) ++
            applySpans base (mergeOpsF fuel (rest.dropWhile opIsRetain))
              (pos + (1 + (rest.takeWhile opIsRetain).length)) =
          opsOut base (Op.retain :: rest) pos
        rw [ih _ (le_trans (length_dropWhile_le _ _) (by simpa using h))]
        conv_rhs =>
          rw [show (Op.retain :: rest : List (Op T)) =
            Op.retain :: (rest.takeWhile opIsRetain ++ rest.dropWhile opIsRetain) by
              rw [List.takeWhile_append_dropWhile]]
        show _ = (base.drop pos).take 1 ++
          opsOut base (rest.takeWhile opIsRetain ++ rest.dropWhile opIsRetain) (pos + 1)
        rw [opsOut_append,
          opsOut_run_retain base _ (fun o ho => List.mem_takeWhile_imp ho),
          opsConsume_run_retain _ (fun o ho => List.mem_takeWhile_imp ho),
          ← List.append_assoc, Nat.add_comm 1 (rest.takeWhile opIsRetain).length,
          drop_take_succ base pos]
        have harith : pos + ((rest.takeWhile opIsRetain).length + 1) =
            pos + 1 + (rest.takeWhile opIsRetain).length := by omega
        rw [harith]
      | delete =>
        show applySpans base (mergeOpsF fuel (rest.dropWhile opIsDelete))
              (pos + (1 + (rest.takeWhile opIsDelete).length)) =
          opsOut base (Op.delete :: rest) pos
        rw [ih _ (le_trans (length_dropWhile_le _ _) (by simpa using h))]
        conv_rhs =>
          rw [show (Op.delete :: rest : List (Op T)) =
            Op.delete :: (rest.takeWhile opIsDelete ++ rest.dropWhile opIsDelete) by
              rw [List.takeWhile_append_dropWhile]]
        show _ = opsOut base (rest.takeWhile opIsDelete ++ rest.dropWhile opIsDelete) (pos + 1)
        rw [opsOut_append,
          opsOut_run_delete base _ (fun o ho => List.mem_takeWhile_imp ho),
          opsConsume_run_delete _ (fun o ho => List.mem_takeWhile_imp ho)]
        have harith : pos + (1 + (rest.takeWhile opIsDelete).length) =
            pos + 1 + (rest.takeWhile opIsDelete).length := by omega
        rw [harith]
        rfl
      | insert x =>
        show (x :: (rest.takeWhile opIsInsert).map opItem) ++
            applySpans base (mergeOpsF fuel (rest.dropWhile opIsInsert)) pos =
          opsOut base (Op.insert x :: rest) pos
        rw [ih _ (le_trans (length_dropWhile_le _ _) (by simpa using h))]
        conv_rhs =>
          rw [show (Op.insert x :: rest : List (Op T)) =
            Op.insert x :: (rest.takeWhile opIsInsert ++ rest.dropWhile opIsInsert) by
              rw [List.takeWhile_append_dropWhile]]
        show _ = x :: opsOut base (rest.takeWhile opIsInsert ++ rest.dropWhile opIsInsert) pos
        rw [opsOut_append,
          opsOut_run_insert base _ (fun o ho => List.mem_takeWhile_imp ho),
          opsConsume_run_insert _ (fun o ho => List.mem_takeWhile_imp ho)]
        simp

/-! ### Well-formedness and coalescing of merged spans -/

theorem mergeOpsF_wellFormed {T : Type} [Inhabited T] :
    ∀ (fuel : Nat) (ops : List (Op T)), ops.length ≤ fuel →
      ∀ s ∈ mergeOpsF fuel ops, spanWellFormed s := by
  intro fuel
  induction fuel with
  | zero =>
    intro ops h s hs
    cases ops with
    | nil => simp [mergeOpsF] at hs
    | cons o rest => simp at h
  | succ fuel ih =>
    intro ops h s hs
    cases ops with
    | nil => simp [mergeOpsF] at hs
    | cons o rest =>
      cases o with
      | retain =>
        rcases List.mem_cons.mp hs with hh | ht
        · rw [hh]
          show 1 ≤ 1 + (rest.takeWhile opIsRetain).length
          omega
        · exact ih _ (le_trans (length_dropWhile_le _ _) (by simpa using h)) s ht
      | delete =>
        rcases List.mem_cons.mp hs with hh | ht
        · rw [hh]
          show 1 ≤ 1 + (rest.takeWhile opIsDelete).length
          omega
        · exact ih _ (le_trans (length_dropWhile_le _ _) (by simpa using h)) s ht
      | insert x =>
        rcases List.mem_cons.mp hs with hh | ht
        · rw [hh]
          show x :: (rest.takeWhile opIsInsert).map opItem ≠ []
          simp
        · exact ih _ (le_trans (length_dropWhile_le _ _) (by simpa using h)) s ht

theorem mergeOpsF_head_tag {T : Type} [Inhabited T] :
    ∀ (fuel : Nat) (x : Op T) (xs : List (Op T)), 1 ≤ fuel →
      ∃ s l', mergeOpsF fuel (x :: xs) = s :: l' ∧ spanTag s = opTag x := by
  intro fuel x xs hf
  cases fuel with
  | zero => omega
  | succ fuel =>
    cases x with
    | retain => exact ⟨_, _, rfl, rfl⟩
    | delete => exact ⟨_, _, rfl, rfl⟩
    | insert y => exact ⟨_, _, rfl, rfl⟩

theorem mergeOpsF_chain {T : Type} [Inhabited T] :
    ∀ (fuel : Nat) (ops : List (Op T)), ops.length ≤ fuel →
      (mergeOpsF fuel ops).Chain' (fun s t => spanTag s ≠ spanTag t) := by
  intro fuel
  induction fuel with
  | zero =>
    intro ops h
    cases ops with
    | nil => simp [mergeOpsF]
    | cons o rest => simp at h
  | succ fuel ih =>
    intro ops h
    cases ops with
    | nil => simp [mergeOpsF]
    | cons o rest =>
      cases o with
      | retain =>
        show List.Chain' _ (Span.retain (1 + (rest.takeWhile opIsRetain).length) ::
          mergeOpsF fuel (rest.dropWhile opIsRetain))
        rw [List.chain'_cons']
        refine ⟨?_, ih _ (le_trans (length_dropWhile_le _ _) (by simpa using h))⟩
        intro y hy
        cases hdw : rest.dropWhile opIsRetain with
        | nil => rw [hdw] at hy; simp [mergeOpsF] at hy
        | cons z zs =>
          have hz : opIsRetain z = false := dropWhile_head_false hdw
          have hfuel : 1 ≤ fuel := by
            have := length_dropWhile_le (opIsRetain (T := T)) rest
            rw [hdw] at this
            have hr : rest.length ≤ fuel := by simpa using h
            simp at this
            omega
          obtain ⟨s, l', hs, htag⟩ := mergeOpsF_head_tag fuel z zs hfuel
          rw [hdw, hs] at hy
          simp at hy
          rw [← hy, htag]
          show spanTag (Span.retain (1 + (rest.takeWhile opIsRetain).length)) ≠ opTag z
          cases z with
          | retain => simp [opIsRetain] at hz
          | delete => simp [spanTag, opTag]
          | insert w => simp [spanTag, opTag]
      | delete =>
        show List.Chain' _ (Span.delete (1 + (rest.takeWhile opIsDelete).length) ::
          mergeOpsF fuel (rest.dropWhile opIsDelete))
        rw [List.chain'_cons']
        refine ⟨?_, ih _ (le_trans (length_dropWhile_le _ _) (by simpa using h))⟩
        intro y hy
        cases hdw : rest.dropWhile opIsDelete with
        | nil => rw [hdw] at hy; simp [mergeOpsF] at hy
        | cons z zs =>
          have hz : opIsDelete z = false := dropWhile_head_false hdw
          have hfuel : 1 ≤ fuel := by
            have := length_dropWhile_le (opIsDelete (T := T)) rest
            rw [hdw] at this
            have hr : rest.length ≤ fuel := by simpa using h
            simp at this
            omega
          obtain ⟨s, l', hs, htag⟩ := mergeOpsF_head_tag fuel z zs hfuel
          rw [hdw, hs] at hy
          simp at hy
          rw [← hy, htag]
          show spanTag (Span.delete (1 + (rest.takeWhile opIsDelete).length)) ≠ opTag z
          cases z with
          | delete => simp [opIsDelete] at hz
          | retain => simp [spanTag, opTag]
          | insert w => simp [spanTag, opTag]
      | insert x =>
        show List.Chain' _ (Span.insert (x :: (rest.takeWhile opIsInsert).map opItem) ::
          mergeOpsF fuel (rest.dropWhile opIsInsert))
        rw [List.chain'_cons']
        refine ⟨?_, ih _ (le_trans (length_dropWhile_le _ _) (by simpa using h))⟩
        intro y hy
        cases hdw : rest.dropWhile opIsInsert with
        | nil => rw [hdw] at hy; simp [mergeOpsF] at hy
        | cons z zs =>
          have hz : opIsInsert z = false := dropWhile_head_false hdw
          have hfuel : 1 ≤ fuel := by
            have := length_dropWhile_le (opIsInsert (T := T)) rest
            rw [hdw] at this
            have hr : rest.length ≤ fuel := by simpa using h
            simp at this
            omega
          obtain ⟨s, l', hs, htag⟩ := mergeOpsF_head_tag fuel z zs hfuel
          rw [hdw, hs] at hy
          simp at hy
          rw [← hy, htag]
          show spanTag (Span.insert (x :: (rest.takeWhile opIsInsert).map opItem)) ≠ opTag z
          cases z with
          | insert w => simp [opIsInsert] at hz
          | retain => simp [spanTag, opTag]
          | delete => simp [spanTag, opTag]

/-! ### Backtracking: consumption and output characterisation -/

theorem backtrackF_consume {T : Type} [Inhabited T] (eq : T → T → Bool)
    (before after : List T) :
    ∀ (fuel i j : Nat), i + j ≤ fuel →
      opsConsume (backtrackF eq before after fuel i j) = i := by
  intro fuel
  induction fuel with
  | zero =>
    intro i j hf
    have hi : i = 0 := by omega
    have hj : j = 0 := by omega
    subst hi hj
    rfl
  | succ fuel ih =>
    intro i j hf
    cases i with
    | zero =>
      cases j with
      | zero => rfl
      | succ j =>
        show opsConsume (backtrackF eq before after fuel 0 j ++ [Op.insert (after.getD j default)]) = 0
        rw [opsConsume_append, ih 0 j (by omega)]
        rfl
    | succ i =>
      cases j with
      | zero =>
        show opsConsume (backtrackF eq before after fuel i 0 ++ [Op.delete]) = i + 1
        rw [opsConsume_append, ih i 0 (by omega)]
        rfl
      | succ j =>
        show opsConsume (if eq (before.getD i default) (after.getD j default) then
            backtrackF eq before after fuel i j ++ [Op.retain]
          else if lcs eq before after (i + 1) j ≤ lcs eq before after i (j + 1) then
            backtrackF eq before after fuel i (j + 1) ++ [Op.delete]
          else
            backtrackF eq before after fuel (i + 1) j ++ [Op.insert (after.getD j default)]) =
          i + 1
        split_ifs with h1 h2
        · rw [opsConsume_append, ih i j (by omega)]
          rfl
        · rw [opsConsume_append, ih i (j + 1) (by omega)]
          rfl
        · rw [opsConsume_append, ih (i + 1) j (by omega)]
          rfl

theorem backtrackF_out {T : Type} [Inhabited T] (eq : T → T → Bool)
    (before after : List T) (lawful : ∀ a b, eq a b = true ↔ a = b) :
    ∀ (fuel i j : Nat), i ≤ before.length → j ≤ after.length → i + j ≤ fuel →
      opsOut before (backtrackF eq before after fuel i j) 0 = after.take j := by
  intro fuel
  induction fuel with
  | zero =>
    intro i j hi hj hf
    have hi0 : i = 0 := by omega
    have hj0 : j = 0 := by omega
    subst hi0 hj0
    rfl
  | succ fuel ih =>
    intro i j hi hj hf
    cases i with
    | zero =>
      cases j with
      | zero => rfl
      | succ j =>
        show opsOut before
          (backtrackF eq before after fuel 0 j ++ [Op.insert (after.getD j default)]) 0 =
          after.take (j + 1)
        rw [opsOut_append, ih 0 j (by omega) (by omega) (by omega)]
        show after.take j ++ [after.getD j default] = after.take (j + 1)
        rw [take_succ_getD default after j (by omega)]
    | succ i =>
      cases j with
      | zero =>
        show opsOut before (backtrackF eq before after fuel i 0 ++ [Op.delete]) 0 =
          after.take 0
        rw [opsOut_append, ih i 0 (by omega) (by omega) (by omega)]
        rfl
      | succ j =>
        show opsOut before (if eq (before.getD i default) (after.getD j default) then
            backtrackF eq before after fuel i j ++ [Op.retain]
          else if lcs eq before after (i + 1) j ≤ lcs eq before after i (j + 1) then
            backtrackF eq before after fuel i (j + 1) ++ [Op.delete]
          else
            backtrackF eq before after fuel (i + 1) j ++ [Op.insert (after.getD j default)]) 0 =
          after.take (j + 1)
        split_ifs with h1 h2
        · rw [opsOut_append, ih i j (by omega) (by omega) (by omega),
            backtrackF_consume eq before after fuel i j (by omega)]
          show after.take j ++ ((before.drop (0 + i)).take 1 ++ opsOut before [] (0 + i + 1)) =
            after.take (j + 1)
          rw [drop_take_one default before (0 + i) (by omega)]
          have heq : before.getD (0 + i) default = after.getD j default := by
            have := (lawful (before.getD i default) (after.getD j default)).mp h1
            simpa using this
          rw [heq]
          show after.take j ++ ([after.getD j default] ++ []) = after.take (j + 1)
          rw [List.append_nil, take_succ_getD default after j (by omega)]
        · rw [opsOut_append, ih i (j + 1) (by omega) (by omega) (by omega)]
          show after.take (j + 1) ++ [] = after.take (j + 1)
          rw [List.append_nil]
        · rw [opsOut_append, ih (i + 1) j (by omega) (by omega) (by omega)]
          show after.take j ++ [after.getD j default] = after.take (j + 1)
          rw [take_succ_getD default after j (by omega)]

/-! ### The produced patch: consumption, round trip, well-formedness -/

theorem zipWith_all_eq {T : Type} (eq : T → T → Bool)
    (lawful : ∀ a b, eq a b = true ↔ a = b) :
    ∀ (l1 l2 : List T), l1.length = l2.length →
      (List.zipWith eq l1 l2).all id = true → l1 = l2 := by
  intro l1
  induction l1 with
  | nil =>
    intro l2 h _
    cases l2 with
    | nil => rfl
    | cons b t2 => simp at h
  | cons a t ih =>
    intro l2 h hall
    cases l2 with
    | nil => simp at h
    | cons b t2 =>
      rw [List.zipWith_cons_cons, List.all_cons] at hall
      have h1 : eq a b = true := by
        have := (Bool.and_eq_true _ _).mp hall
        simpa using this.1
      have h2 : (List.zipWith eq t t2).all id = true :=
        ((Bool.and_eq_true _ _).mp hall).2
      rw [(lawful a b).mp h1, ih t2 (by simpa using h) h2]

theorem createOptimalDiff_nil_nil {T : Type} [Inhabited T] (eq : T → T → Bool) :
    createOptimalDiff eq ([] : List T) [] = [] := by
  simp [createOptimalDiff]

theorem createOptimalDiff_nil_left {T : Type} [Inhabited T] (eq : T → T → Bool)
    (after : List T) (h : after ≠ []) :
    createOptimalDiff eq [] after = [Span.insert after] := by
  have hm : after.length ≠ 0 := by simpa [List.length_eq_zero] using h
  simp [createOptimalDiff, hm]

theorem createOptimalDiff_nil_right {T : Type} [Inhabited T] (eq : T → T → Bool)
    (before : List T) (h : before ≠ []) :
    createOptimalDiff eq before [] = [Span.delete before.length] := by
  have hn : before.length ≠ 0 := by simpa [List.length_eq_zero] using h
  simp [createOptimalDiff, hn]

theorem createOptimalDiff_equal {T : Type} [Inhabited T] (eq : T → T → Bool)
    (before after : List T) (hb : before ≠ [])
    (hlen : before.length = after.length)
    (hall : (List.zipWith eq before after).all id = true) :
    createOptimalDiff eq before after = [Span.retain before.length] := by
  have hn : before.length ≠ 0 := by simpa [List.length_eq_zero] using hb
  have hm : after.length ≠ 0 := by omega
  simp [createOptimalDiff, hn, hm, hlen, hall]

theorem createOptimalDiff_general {T : Type} [Inhabited T] (eq : T → T → Bool)
    (before after : List T) (hb : before ≠ []) (ha : after ≠ [])
    (hne : ¬(before.length = after.length ∧ (List.zipWith eq before after).all id = true)) :
    createOptimalDiff eq before after =
      mergeOps (backtrackF eq before after (before.length + after.length)
        before.length after.length) := by
  have hn : before.length ≠ 0 := by simpa [List.length_eq_zero] using hb
  have hm : after.length ≠ 0 := by simpa [List.length_eq_zero] using ha
  simp only [createOptimalDiff, if_neg hn, if_neg hm, if_neg hne]

theorem createOptimalDiff_consume {T : Type} [Inhabited T] (eq : T → T → Bool)
    (before after : List T) :
    spansConsume (createOptimalDiff eq before after) = before.length := by
  by_cases hb : before = []
  · subst hb
    by_cases ha : after = []
    · subst ha
      rw [createOptimalDiff_nil_nil]
      rfl
    · rw [createOptimalDiff_nil_left eq after ha]
      rfl
  · by_cases ha : after = []
    · subst ha
      rw [createOptimalDiff_nil_right eq before hb]
      simp [spansConsume, spanConsume]
    · by_cases heq : before.length = after.length ∧
        (List.zipWith eq before after).all id = true
      · rw [createOptimalDiff_equal eq before after hb heq.1 heq.2]
        simp [spansConsume, spanConsume]
      · rw [createOptimalDiff_general eq before after hb ha heq]
        unfold mergeOps
        rw [mergeOpsF_consume _ _ (le_refl _),
          backtrackF_consume eq before after _ _ _ (le_refl _)]

theorem apply_createFromDiffArray {T : Type} [Inhabited T] (eq : T → T → Bool)
    (lawful : ∀ a b, eq a b = true ↔ a = b) (before after : List T) :
    applyArray (createFromDiffArray eq before after) = after := by
  show applySpans before (createOptimalDiff eq before after) 0 = after
  by_cases hb : before = []
  · subst hb
    by_cases ha : after = []
    · subst ha
      rw [createOptimalDiff_nil_nil]
      rfl
    · rw [createOptimalDiff_nil_left eq after ha]
      show after ++ applySpans [] [] 0 = after
      simp [applySpans]
  · by_cases ha : after = []
    · subst ha
      rw [createOptimalDiff_nil_right eq before hb]
      rfl
    · by_cases heq : before.length = after.length ∧
        (List.zipWith eq before after).all id = true
      · rw [createOptimalDiff_equal eq before after hb heq.1 heq.2]
        have hba : before = after := zipWith_all_eq eq lawful before after heq.1 heq.2
        show (before.drop 0).take before.length ++ applySpans before [] (0 + before.length) =
          after
        simp [applySpans, hba]
      · rw [createOptimalDiff_general eq before after hb ha heq]
        unfold mergeOps
        rw [mergeOpsF_out before _ _ (le_refl _) 0,
          backtrackF_out eq before after lawful _ _ _ (le_refl _) (le_refl _) (le_refl _),
          List.take_length]

theorem createOptimalDiff_wf {T : Type} [Inhabited T] (eq : T → T → Bool)
    (before after : List T) :
    (∀ s ∈ createOptimalDiff eq before after, spanWellFormed s) ∧
      (createOptimalDiff eq before after).Chain' (fun s t => spanTag s ≠ spanTag t) := by
  by_cases hb : before = []
  · subst hb
    by_cases ha : after = []
    · subst ha
      rw [createOptimalDiff_nil_nil]
      exact ⟨by simp, by simp⟩
    · rw [createOptimalDiff_nil_left eq after ha]
      refine ⟨?_, List.chain'_singleton _⟩
      intro s hs
      rw [List.mem_singleton.mp hs]
      exact ha
  · by_cases ha : after = []
    · subst ha
      rw [createOptimalDiff_nil_right eq before hb]
      refine ⟨?_, List.chain'_singleton _⟩
      intro s hs
      rw [List.mem_singleton.mp hs]
      show 1 ≤ before.length
      exact List.length_pos.mpr hb
    · by_cases heq : before.length = after.length ∧
        (List.zipWith eq before after).all id = true
      · rw [createOptimalDiff_equal eq before after hb heq.1 heq.2]
        refine ⟨?_, List.chain'_singleton _⟩
        intro s hs
        rw [List.mem_singleton.mp hs]
        show 1 ≤ before.length
        exact List.length_pos.mpr hb
      · rw [createOptimalDiff_general eq before after hb ha heq]
        exact ⟨mergeOpsF_wellFormed _ _ (le_refl _), mergeOpsF_chain _ _ (le_refl _)⟩

/-! ### DTO round trips -/

theorem spanFromDto_toDto {T : Type} (s : Span T) : spanFromDto (spanToDto s) = .ok s := by
  cases s <;> rfl

theorem spansFromDtos_map_toDto {T : Type} (spans : List (Span T)) :
    spansFromDtos (spans.map spanToDto) = .ok spans := by
  induction spans with
  | nil => rfl
  | cons s rest ih =>
    show spansFromDtos (spanToDto s :: rest.map spanToDto) = _
    unfold spansFromDtos
    rw [spanFromDto_toDto, ih]

theorem spanFromDto_valid {T : Type} (dto : SpanDto T) (hv : spanDtoValid dto) :
    ∃ s, spanFromDto dto = .ok s ∧ spanToDto s = dto := by
  obtain ⟨r, d, i⟩ := dto
  rcases hv with ⟨hr, hd, hi⟩ | ⟨hr, hd, hi⟩ | ⟨hr, hd, hi⟩
  · obtain ⟨c, hc⟩ := Option.isSome_iff_exists.mp hr
    rw [Option.isNone_iff_eq_none] at hd hi
    subst hc hd hi
    exact ⟨Span.retain c, rfl, rfl⟩
  · obtain ⟨c, hc⟩ := Option.isSome_iff_exists.mp hd
    rw [Option.isNone_iff_eq_none] at hr hi
    subst hc hr hi
    exact ⟨Span.delete c, rfl, rfl⟩
  · obtain ⟨items, hitems⟩ := Option.isSome_iff_exists.mp hi
    rw [Option.isNone_iff_eq_none] at hr hd
    subst hitems hr hd
    exact ⟨Span.insert items, rfl, rfl⟩

theorem spansFromDtos_valid {T : Type} :
    ∀ (dtos : List (SpanDto T)), (∀ dto ∈ dtos, spanDtoValid dto) →
      ∃ spans, spansFromDtos dtos = .ok spans ∧ spans.map spanToDto = dtos := by
  intro dtos
  induction dtos with
  | nil => intro _; exact ⟨[], rfl, rfl⟩
  | cons dto rest ih =>
    intro h
    obtain ⟨s, hs, hts⟩ := spanFromDto_valid dto (h dto (List.mem_cons_self dto rest))
    obtain ⟨spans, hsp, htsp⟩ := ih fun x hx => h x (List.mem_cons_of_mem dto hx)
    refine ⟨s :: spans, ?_, ?_⟩
    · unfold spansFromDtos
      rw [hs, hsp]
    · show spanToDto s :: spans.map spanToDto = dto :: rest
      rw [hts, htsp]

/-! ### Clamping and output-size bound of apply -/

theorem applySpans_length_le {T : Type} (base : List T) :
    ∀ (spans : List (Span T)) (pos : Nat),
      (applySpans base spans pos).length ≤
        (base.length - pos) + (spans.map spanInserted).sum := by
  intro spans
  induction spans with
  | nil => intro pos; simp [applySpans]
  | cons s rest ih =>
    intro pos
    cases s with
    | retain c =>
      have ihr := ih (pos + c)
      show ((base.drop pos).take c ++ applySpans base rest (pos + c)).length ≤ _
      rw [List.length_append, List.length_take, List.length_drop]
      show _ ≤ (base.length - pos) +
        (spanInserted (Span.retain c) + (rest.map spanInserted).sum)
      simp only [spanInserted]
      omega
    | delete c =>
      have ihr := ih (pos + c)
      show (applySpans base rest (pos + c)).length ≤ _
      show _ ≤ (base.length - pos) +
        (spanInserted (Span.delete c) + (rest.map spanInserted).sum)
      simp only [spanInserted]
      omega
    | insert items =>
      have ihr := ih pos
      show (items ++ applySpans base rest pos).length ≤ _
      rw [List.length_append]
      show _ ≤ (base.length - pos) +
        (spanInserted (Span.insert items) + (rest.map spanInserted).sum)
      simp only [spanInserted]
      omega

theorem charEq_lawful : ∀ a b : Char, charEq a b = true ↔ a = b := by
  intro a b
  simp [charEq]

/-! ### Claims -/

/-- C1: applying a patch built from a diff reproduces the target — for all
strings `s1, s2`, `$StringDiff.apply($StringDiff.createFromDiff(s1, s2))` is
`s2` and `$Patch.apply($Patch.createFromDiff(s1, s2))` is the string `s2`;
and for all sequences and a comparer whose `equals` coincides with element
equality, `$Patch.apply($Patch.createFromDiff(before, after, comparer))`
equals `after` element-wise. -/
theorem C1_apply_round_trip :
    (∀ s1 s2 : List Char, stringDiffApply (stringDiffCreateFromDiff s1 s2) = s2) ∧
    (∀ s1 s2 : List Char, patchApply (patchCreateFromDiffStr s1 s2) = StrOrArr.str s2) ∧
    (∀ (T : Type) [Inhabited T] (eq : T → T → Bool),
      (∀ a b, eq a b = true ↔ a = b) →
      ∀ before after : List T, applyArray (createFromDiffArray eq before after) = after) := by
  refine ⟨?_, ?_, ?_⟩
  · intro s1 s2
    exact apply_createFromDiffArray charEq charEq_lawful s1 s2
  · intro s1 s2
    show StrOrArr.str (applyArray (patchCreateFromDiffStr s1 s2)) = StrOrArr.str s2
    exact congrArg StrOrArr.str (apply_createFromDiffArray charEq charEq_lawful s1 s2)
  · intro T _ eq lawful before after
    exact apply_createFromDiffArray eq lawful before after

/-- Witness for C1 at concrete inputs. -/
theorem C1_apply_round_trip_witness :
    stringDiffApply (stringDiffCreateFromDiff ['a', 'b'] ['a', 'c']) = ['a', 'c'] ∧
    patchApply (patchCreateFromDiffStr ['a', 'b'] ['a', 'c']) = StrOrArr.str ['a', 'c'] ∧
    applyArray (createFromDiffArray (fun x y : Nat => x == y) [1, 2, 3] [1, 5, 3]) =
      [1, 5, 3] :=
  ⟨C1_apply_round_trip.1 ['a', 'b'] ['a', 'c'],
   C1_apply_round_trip.2.1 ['a', 'b'] ['a', 'c'],
   C1_apply_round_trip.2.2 Nat (fun x y : Nat => x == y) (fun x y => by simp)
     [1, 2, 3] [1, 5, 3]⟩

/-- C2: for every patch produced by `createFromDiff` (string or array form),
the sum of `count` over all Retain and Delete spans equals the length of
`baseVersion`. -/
theorem C2_base_length_conservation :
    (∀ s1 s2 : List Char,
      spansConsume (patchCreateFromDiffStr s1 s2).spans =
        (patchCreateFromDiffStr s1 s2).baseVersion.length) ∧
    (∀ (T : Type) [Inhabited T] (eq : T → T → Bool) (before after : List T),
      spansConsume (createFromDiffArray eq before after).spans =
        (createFromDiffArray eq before after).baseVersion.length) := by
  refine ⟨?_, ?_⟩
  · intro s1 s2
    exact createOptimalDiff_consume charEq s1 s2
  · intro T _ eq before after
    exact createOptimalDiff_consume eq before after

/-- C3 counterexample: `createFromDiff("abc", "axc")` does not produce
Retain(1), Delete(1), Insert("x"), Retain(1) — backtracking walks from the
string ends and `unshift`s, so the forward order puts the insert before the
delete. -/
theorem C3_counterexample_span_order :
    (patchCreateFromDiffStr "abc".toList "axc".toList).spans ≠
      [Span.retain 1, Span.delete 1, Span.insert ['x'], Span.retain 1] := by
  decide

/-- C3 (amended): `createFromDiff("abc", "axc")` produces exactly the span
sequence Retain(1), Insert("x"), Delete(1), Retain(1) — the delete-preferring
tie-break fires while backtracking from the string ends, so in forward order
the insert precedes the delete — and applying the produced patch yields
`"axc"`. -/
theorem C3_abc_axc_spans :
    (patchCreateFromDiffStr "abc".toList "axc".toList).spans =
      [Span.retain 1, Span.insert ['x'], Span.delete 1, Span.retain 1] ∧
    patchApply (patchCreateFromDiffStr "abc".toList "axc".toList) =
      StrOrArr.str "axc".toList := by
  decide

/-- C4 counterexample: for the element-wise-equal pair `before = after = []`,
`createFromDiff` yields zero spans, not one Retain span of count
`length(before) = 0`. -/
theorem C4_counterexample_empty_noop :
    (createFromDiffArray charEq ([] : List Char) []).spans ≠
      [Span.retain ([] : List Char).length] := by
  decide

/-- C4 (amended): for every pair of nonempty sequences that are equal
element-wise under the comparer, `createFromDiff` yields exactly one Retain
span of count `length(before)` (never a Delete+Insert pair); for the empty
pair it yields an empty span list. -/
theorem C4_noop_minimality :
    (∀ (T : Type) [Inhabited T] (eq : T → T → Bool) (before after : List T),
      before ≠ [] → before.length = after.length →
      (List.zipWith eq before after).all id = true →
      (createFromDiffArray eq before after).spans = [Span.retain before.length]) ∧
    (∀ (T : Type) [Inhabited T] (eq : T → T → Bool),
      (createFromDiffArray eq ([] : List T) []).spans = []) := by
  refine ⟨?_, ?_⟩
  · intro T _ eq before after hb hlen hall
    exact createOptimalDiff_equal eq before after hb hlen hall
  · intro T _ eq
    exact createOptimalDiff_nil_nil eq

/-- Witness for C4 at a concrete equal pair. -/
theorem C4_noop_minimality_witness :
    (createFromDiffArray charEq ['a', 'a'] ['a', 'a']).spans =
      [Span.retain (['a', 'a'] : List Char).length] :=
  C4_noop_minimality.1 Char charEq ['a', 'a'] ['a', 'a'] (by decide) (by decide) (by decide)

/-- C5: in every patch produced by `createFromDiff` (string or array form),
every Retain and Delete span has count at least 1, every Insert span carries
at least one item, and no two consecutive spans share a variant tag. -/
theorem C5_span_wellformed_coalesced :
    (∀ s1 s2 : List Char,
      (∀ s ∈ (patchCreateFromDiffStr s1 s2).spans, spanWellFormed s) ∧
      ((patchCreateFromDiffStr s1 s2).spans).Chain' (fun s t => spanTag s ≠ spanTag t)) ∧
    (∀ (T : Type) [Inhabited T] (eq : T → T → Bool) (before after : List T),
      (∀ s ∈ (createFromDiffArray eq before after).spans, spanWellFormed s) ∧
      ((createFromDiffArray eq before after).spans).Chain'
        (fun s t => spanTag s ≠ spanTag t)) := by
  refine ⟨?_, ?_⟩
  · intro s1 s2
    exact createOptimalDiff_wf charEq s1 s2
  · intro T _ eq before after
    exact createOptimalDiff_wf eq before after

/-- Witness for C5 at concrete inputs. -/
theorem C5_span_wellformed_coalesced_witness :
    spanWellFormed (Span.delete 1 : Span Char) ∧
    ((createFromDiffArray charEq ['a'] ['b']).spans).Chain'
      (fun s t => spanTag s ≠ spanTag t) :=
  ⟨(C5_span_wellformed_coalesced.2 Char charEq ['a'] []).1 (Span.delete 1) (by decide),
   (C5_span_wellformed_coalesced.2 Char charEq ['a'] ['b']).2⟩

/-- C6 counterexample: for a string-flavoured patch the DTO round trip is not
the identity — `toDto` drops the `_isStringPatch` tag and `fromDto` rebuilds
the patch without it (observably, `$Patch.apply` then returns an array
instead of a string). -/
theorem C6_counterexample_string_flag :
    patchFromDto (patchToDto (patchCreateFromDiffStr ['a'] ['b'])) ≠
      Except.ok (patchCreateFromDiffStr ['a'] ['b']) := by
  decide

/-- C6 (amended): for every patch `p` whose `_isStringPatch` flag is unset,
`fromDto(toDto(p))` equals `p` (a string-flavoured patch loses the flag, so
only `baseVersion` and `spans` survive the round trip); and for every valid
`PatchDto` `d` — each span DTO carrying exactly one of the keys `r`, `d`,
`i` — `toDto(fromDto(d))` equals `d`. -/
theorem C6_dto_round_trip :
    (∀ (T : Type) (p : Patch T), p.isStringPatch = false →
      patchFromDto (patchToDto p) = Except.ok p) ∧
    (∀ (T : Type) (d : PatchDto T), (∀ dto ∈ d.s, spanDtoValid dto) →
      ∃ p, patchFromDto d = Except.ok p ∧ patchToDto p = d) := by
  refine ⟨?_, ?_⟩
  · intro T p hp
    obtain ⟨bv, spans, flag⟩ := p
    simp only at hp
    subst hp
    show (spansFromDtos (spans.map spanToDto)).map _ = _
    rw [spansFromDtos_map_toDto]
    rfl
  · intro T d hv
    obtain ⟨v, s⟩ := d
    obtain ⟨spans, hsp, hmap⟩ := spansFromDtos_valid s hv
    refine ⟨⟨v, spans, false⟩, ?_, ?_⟩
    · show (spansFromDtos s).map _ = _
      rw [hsp]
      rfl
    · show ({ v := v, s := spans.map spanToDto } : PatchDto T) = ⟨v, s⟩
      rw [hmap]

/-- Witness for C6 at concrete inputs. -/
theorem C6_dto_round_trip_witness :
    patchFromDto (patchToDto
        (⟨['a'], [Span.delete 1, Span.insert ['b']], false⟩ : Patch Char)) =
      Except.ok (⟨['a'], [Span.delete 1, Span.insert ['b']], false⟩ : Patch Char) ∧
    ∃ p, patchFromDto (⟨['a'], [⟨some 1, none, none⟩]⟩ : PatchDto Char) = Except.ok p ∧
      patchToDto p = (⟨['a'], [⟨some 1, none, none⟩]⟩ : PatchDto Char) :=
  ⟨C6_dto_round_trip.1 Char ⟨['a'], [Span.delete 1, Span.insert ['b']], false⟩ rfl,
   C6_dto_round_trip.2 Char ⟨['a'], [⟨some 1, none, none⟩]⟩ (by decide)⟩

/-- C7: when `before` and `after` are not both strings and no comparer is
supplied, `$Patch.createFromDiff` and `$Patch.getEditDistance` raise a
comparer-required error before producing any result; in every other
configuration both succeed — the comparer is never silently defaulted for
non-string inputs. -/
theorem C7_comparer_required :
    ∀ (b a : StrOrArr) (c : Option (Char → Char → Bool)),
      (¬(b.isStr = true ∧ a.isStr = true) → c = none →
        patchCreateFromDiff b a c = .error "Comparer is required for array diff" ∧
        patchGetEditDistance b a c =
          .error "Comparer is required for array edit distance") ∧
      ((b.isStr = true ∧ a.isStr = true) ∨ c ≠ none →
        (∃ p, patchCreateFromDiff b a c = .ok p) ∧
        (∃ n, patchGetEditDistance b a c = .ok n)) := by
  intro b a c
  refine ⟨fun hns hc => ?_, fun h => ?_⟩
  · subst hc
    cases b with
    | str sb =>
      cases a with
      | str sa => exact absurd ⟨rfl, rfl⟩ hns
      | arr la => exact ⟨rfl, rfl⟩
    | arr lb =>
      cases a with
      | str sa => exact ⟨rfl, rfl⟩
      | arr la => exact ⟨rfl, rfl⟩
  · rcases h with ⟨hb, ha⟩ | hc
    · cases b with
      | str sb =>
        cases a with
        | str sa =>
          cases c with
          | none => exact ⟨⟨_, rfl⟩, ⟨_, rfl⟩⟩
          | some eq => exact ⟨⟨_, rfl⟩, ⟨_, rfl⟩⟩
        | arr la => simp [StrOrArr.isStr] at ha
      | arr lb => simp [StrOrArr.isStr] at hb
    · cases c with
      | none => exact absurd rfl hc
      | some eq =>
        cases b with
        | str sb =>
          cases a with
          | str sa => exact ⟨⟨_, rfl⟩, ⟨_, rfl⟩⟩
          | arr la => exact ⟨⟨_, rfl⟩, ⟨_, rfl⟩⟩
        | arr lb =>
          cases a with
          | str sa => exact ⟨⟨_, rfl⟩, ⟨_, rfl⟩⟩
          | arr la => exact ⟨⟨_, rfl⟩, ⟨_, rfl⟩⟩

/-- Witness for C7 at concrete inputs. -/
theorem C7_comparer_required_witness :
    patchCreateFromDiff (StrOrArr.arr ['a']) (StrOrArr.arr ['b']) none =
      .error "Comparer is required for array diff" ∧
    patchGetEditDistance (StrOrArr.arr ['a']) (StrOrArr.arr ['b']) none =
      .error "Comparer is required for array edit distance" ∧
    ∃ p, patchCreateFromDiff (StrOrArr.str ['a']) (StrOrArr.str ['b']) none = .ok p := by
  have h1 := (C7_comparer_required (StrOrArr.arr ['a']) (StrOrArr.arr ['b']) none).1
    (by decide) rfl
  have h2 := (C7_comparer_required (StrOrArr.str ['a']) (StrOrArr.str ['b']) none).2
    (Or.inl (by decide))
  exact ⟨h1.1, h1.2, h2.1⟩

/-- C8: `$Span.fromDto` returns a span without error for every DTO carrying
one of the discriminator keys `r`, `d`, `i`, and raises the descriptive
invalid-span-encoding error (`"Invalid span DTO"`) for every DTO carrying
none of them. -/
theorem C8_span_fromDto_totality :
    ∀ (T : Type) (dto : SpanDto T),
      (dto.r.isSome = true ∨ dto.d.isSome = true ∨ dto.i.isSome = true →
        ∃ s, spanFromDto dto = .ok s) ∧
      (dto.r = none ∧ dto.d = none ∧ dto.i = none →
        spanFromDto dto = .error "Invalid span DTO") := by
  intro T dto
  obtain ⟨r, d, i⟩ := dto
  refine ⟨fun h => ?_, fun h => ?_⟩
  · rcases r with _ | c
    · rcases d with _ | c
      · rcases i with _ | items
        · simp at h
        · exact ⟨Span.insert items, rfl⟩
      · exact ⟨Span.delete c, rfl⟩
    · exact ⟨Span.retain c, rfl⟩
  · obtain ⟨hr, hd, hi⟩ := h
    simp only at hr hd hi
    subst hr hd hi
    rfl

/-- Witness for C8 at concrete DTOs. -/
theorem C8_span_fromDto_totality_witness :
    (∃ s, spanFromDto (⟨some 1, none, none⟩ : SpanDto Char) = .ok s) ∧
    spanFromDto (⟨none, none, none⟩ : SpanDto Char) = .error "Invalid span DTO" :=
  ⟨(C8_span_fromDto_totality Char ⟨some 1, none, none⟩).1 (Or.inl rfl),
   (C8_span_fromDto_totality Char ⟨none, none, none⟩).2 ⟨rfl, rfl, rfl⟩⟩

/-- C9 counterexample: the claim asserts `equals(null, undefined)` holds for
the ByField comparer, but the code returns `null === undefined`, which is
false (the repository's comparer tests pin this behaviour). -/
theorem C9_counterexample_null_undefined :
    byFieldEquals (fun n : Nat => n) Nullish.nullv Nullish.undefv ≠ true := by
  decide

/-- C9 (amended): for the ByField(fieldName) comparer, `equals(a, b)` on two
non-null operands holds iff the named fields are equal by strict comparison;
`null` equals `null` and `undefined` equals `undefined`, but
`equals(null, undefined)` is false, and a nullish operand never equals a
non-null value. -/
theorem C9_byField_characterisation :
    ∀ (α β : Type) [DecidableEq β] (field : α → β),
      (∀ a b : α, byFieldEquals field (Nullish.val a) (Nullish.val b) = true ↔
        field a = field b) ∧
      byFieldEquals field Nullish.nullv Nullish.nullv = true ∧
      byFieldEquals field Nullish.undefv Nullish.undefv = true ∧
      byFieldEquals field Nullish.nullv Nullish.undefv = false ∧
      byFieldEquals field Nullish.undefv Nullish.nullv = false ∧
      (∀ a : α, byFieldEquals field Nullish.nullv (Nullish.val a) = false ∧
        byFieldEquals field (Nullish.val a) Nullish.nullv = false ∧
        byFieldEquals field Nullish.undefv (Nullish.val a) = false ∧
        byFieldEquals field (Nullish.val a) Nullish.undefv = false) := by
  intro α β _ field
  refine ⟨fun a b => ?_, rfl, rfl, rfl, rfl, fun a => ⟨rfl, rfl, rfl, rfl⟩⟩
  show decide (field a = field b) = true ↔ field a = field b
  exact decide_eq_true_iff

/-- C10: `$Patch.apply` / `_applyArray` is total and never raises, even on a
malformed patch whose Retain and Delete spans over-consume `baseVersion`: a
Retain reaching past the end contributes only the elements that exist (slice
clamps to the array bounds), a Delete past the end merely advances the
cursor, the output size is bounded by the base length plus the inserted
items, and the call silently returns the possibly truncated output. -/
theorem C10_apply_total_clamps :
    (∀ (T : Type) (base : List T) (c pos : Nat), base.length ≤ pos + c →
      applySpans base [Span.retain c] pos = base.drop pos) ∧
    (∀ (T : Type) (base : List T) (c : Nat) (xs : List T), base.length ≤ c →
      applyArray (⟨base, [Span.delete c, Span.insert xs], false⟩ : Patch T) = xs) ∧
    (∀ (T : Type) (p : Patch T),
      (applyArray p).length ≤ p.baseVersion.length + (p.spans.map spanInserted).sum) ∧
    applyArray (⟨['a', 'b'], [Span.retain 5, Span.delete 7, Span.insert ['x']],
      false⟩ : Patch Char) = ['a', 'b', 'x'] := by
  refine ⟨?_, ?_, ?_, ?_⟩
  · intro T base c pos h
    show (base.drop pos).take c ++ applySpans base [] (pos + c) = base.drop pos
    have hle : (base.drop pos).length ≤ c := by
      rw [List.length_drop]
      omega
    rw [List.take_of_length_le hle]
    simp [applySpans]
  · intro T base c xs h
    show xs ++ applySpans base [] (0 + c) = xs
    simp [applySpans]
  · intro T p
    have h := applySpans_length_le p.baseVersion p.spans 0
    simpa using h
  · decide

/-- Witness for C10 at concrete malformed patches. -/
theorem C10_apply_total_clamps_witness :
    applySpans (['a', 'b'] : List Char) [Span.retain 5] 1 = (['a', 'b'] : List Char).drop 1 ∧
    applyArray (⟨['a', 'b'], [Span.delete 9, Span.insert ['z']], false⟩ : Patch Char) =
      ['z'] ∧
    (applyArray (⟨['a', 'b'], [Span.retain 5, Span.delete 7, Span.insert ['x']],
        false⟩ : Patch Char)).length ≤
      (⟨['a', 'b'], [Span.retain 5, Span.delete 7, Span.insert ['x']],
        false⟩ : Patch Char).baseVersion.length +
      (((⟨['a', 'b'], [Span.retain 5, Span.delete 7, Span.insert ['x']],
        false⟩ : Patch Char)).spans.map spanInserted).sum :=
  ⟨C10_apply_total_clamps.1 Char ['a', 'b'] 5 1 (by decide),
   C10_apply_total_clamps.2.1 Char ['a', 'b'] 9 ['z'] (by decide),
   C10_apply_total_clamps.2.2.1 Char
     ⟨['a', 'b'], [Span.retain 5, Span.delete 7, Span.insert ['x']], false⟩⟩

end StudyCrdt
